import Mathlib

/-!
Verification of the sortmerna core headers.

Part 1 models the class ReadsQueue of src/include/readsqueue.hpp.
The class keeps atomic counters num_in, num_out, num_reads_tot, a latch
is_done_push, and a container of records, and offers push and pop with two
conditional-compilation backends: CONCURRENTQUEUE (a lockless queue used
through try_enqueue and try_dequeue) and LOCKQUEUE (a std::queue guarded by a
mutex and a condition variable). Records are std::string values, modeled as
String. The state is modeled sequentially: one operation runs at a time, which
matches the semantics the source enforces with the mutex, respectively with
the linearizable lockless queue.
-/

namespace SortMeRNA

/-- State of class ReadsQueue (readsqueue.hpp, lines 26 to 44): capacity,
the is_done_push latch, the three counters, and the queued records in FIFO
order. The member id (a debug label) is omitted. -/
structure ReadsQueue where
  capacity : Nat
  is_done_push : Bool
  num_reads_tot : Nat
  num_in : Nat
  num_out : Nat
  recs : List String
deriving DecidableEq

/-- Constructor of ReadsQueue (lines 46 to 62): is_done_push starts false,
num_in and num_out start at 0, num_reads_tot and capacity are taken from the
arguments (the source defaults are capacity 100 and num_reads_tot 0), and the
container starts empty. -/
def mkReadsQueue (capacity num_reads_tot : Nat) : ReadsQueue :=
  { capacity := capacity
    is_done_push := false
    num_reads_tot := num_reads_tot
    num_in := 0
    num_out := 0
    recs := [] }

/-- Method push under CONCURRENTQUEUE (lines 76 to 78): res is the result of
try_enqueue, which never blocks and fails when the queue is at its fixed
capacity (the moodycamel queue is constructed with initial capacity and
try_enqueue never allocates new blocks); num_in is incremented whether or not
the enqueue succeeded; res is returned. -/
def ReadsQueue.push (q : ReadsQueue) (rec : String) : Bool × ReadsQueue :=
  if q.recs.length < q.capacity then
    (true, { q with recs := q.recs ++ [rec], num_in := q.num_in + 1 })
  else
    (false, { q with num_in := q.num_in + 1 })

/-- Method pop under CONCURRENTQUEUE (lines 92 to 94): res is the result of
try_dequeue, which never blocks and fails exactly when the queue is empty;
num_out is incremented only when a record was dequeued. The returned triple is
the boolean res, the dequeued record if any, and the new state. -/
def ReadsQueue.pop (q : ReadsQueue) : Bool × Option String × ReadsQueue :=
  match q.recs with
  | [] => (false, none, q)
  | r :: rs => (true, some r, { q with recs := rs, num_out := q.num_out + 1 })

/-- Method push under LOCKQUEUE (lines 79 to 84): the call waits on the
condition variable until recs.size is below capacity, then enqueues the record
and notifies. A call that is still blocked is modeled as none; some (res, q2)
models a call that returned. The local res is never assigned in this branch,
so the returned boolean is the initial false; num_in is not touched in this
branch. -/
def ReadsQueue.lockPush (q : ReadsQueue) (rec : String) : Option (Bool × ReadsQueue) :=
  if q.recs.length < q.capacity then
    some (false, { q with recs := q.recs ++ [rec] })
  else
    none

/-- An operation on a ReadsQueue under the CONCURRENTQUEUE backend. Closing is
performed by the callers of the class, which store true into the public atomic
is_done_push; no method of the class writes that flag. -/
inductive QOp where
  | push (rec : String)
  | pop
  | close
deriving DecidableEq

/-- Effect of one operation on the queue state. -/
def applyOp (q : ReadsQueue) : QOp → ReadsQueue
  | QOp.push rec => (q.push rec).2
  | QOp.pop => q.pop.2.2
  | QOp.close => { q with is_done_push := true }

/-- Run a sequence of operations from a given state. -/
def runOps (q : ReadsQueue) (ops : List QOp) : ReadsQueue :=
  ops.foldl applyOp q

/-- Number of push operations in a sequence. -/
def countPush : List QOp → Nat
  | [] => 0
  | QOp.push _ :: ops => countPush ops + 1
  | QOp.pop :: ops => countPush ops
  | QOp.close :: ops => countPush ops

/-- Number of pops that return a record (res true) along a run of a sequence
of operations from a given state. -/
def succPops : ReadsQueue → List QOp → Nat
  | _, [] => 0
  | q, QOp.push rec :: ops => succPops (applyOp q (QOp.push rec)) ops
  | q, QOp.pop :: ops => (if q.pop.1 then 1 else 0) + succPops (applyOp q QOp.pop) ops
  | q, QOp.close :: ops => succPops (applyOp q QOp.close) ops

/-- Auxiliary invariant tying the counters to the container: the records
popped so far plus the records still queued never exceed num_in. -/
def QInv (q : ReadsQueue) : Prop :=
  q.num_out + q.recs.length ≤ q.num_in

theorem qInv_applyOp (q : ReadsQueue) (op : QOp) (h : QInv q) : QInv (applyOp q op) := by
  obtain ⟨c, d, t, i, o, recs⟩ := q
  cases op with
  | push rec =>
    simp only [QInv, applyOp, ReadsQueue.push] at *
    split <;> simp at h ⊢ <;> omega
  | pop =>
    cases recs with
    | nil => simpa [QInv, applyOp, ReadsQueue.pop] using h
    | cons r rs =>
      simp only [QInv, applyOp, ReadsQueue.pop] at *
      simp at h ⊢
      omega
  | close =>
    simpa [QInv, applyOp] using h

theorem qInv_runOps (q : ReadsQueue) (ops : List QOp) (h : QInv q) : QInv (runOps q ops) := by
  induction ops generalizing q with
  | nil => exact h
  | cons op ops ih => exact ih _ (qInv_applyOp q op h)

theorem num_in_applyOp (q : ReadsQueue) (op : QOp) :
    (applyOp q op).num_in = q.num_in + countPush [op] := by
  obtain ⟨c, d, t, i, o, recs⟩ := q
  cases op with
  | push rec =>
    simp only [applyOp, ReadsQueue.push, countPush]
    split <;> rfl
  | pop =>
    cases recs <;> rfl
  | close => rfl

theorem num_in_runOps (q : ReadsQueue) (ops : List QOp) :
    (runOps q ops).num_in = q.num_in + countPush ops := by
  induction ops generalizing q with
  | nil => rfl
  | cons op ops ih =>
    have h1 := num_in_applyOp q op
    have h2 := ih (applyOp q op)
    simp only [runOps, List.foldl_cons] at *
    cases op <;> simp [countPush] at h1 ⊢ <;> omega

theorem num_reads_tot_applyOp (q : ReadsQueue) (op : QOp) :
    (applyOp q op).num_reads_tot = q.num_reads_tot := by
  obtain ⟨c, d, t, i, o, recs⟩ := q
  cases op with
  | push rec =>
    simp only [applyOp, ReadsQueue.push]
    split <;> rfl
  | pop =>
    cases recs <;> rfl
  | close => rfl

theorem num_reads_tot_runOps (q : ReadsQueue) (ops : List QOp) :
    (runOps q ops).num_reads_tot = q.num_reads_tot := by
  induction ops generalizing q with
  | nil => rfl
  | cons op ops ih =>
    simp only [runOps, List.foldl_cons] at *
    rw [ih, num_reads_tot_applyOp]

theorem num_out_applyOp_mono (q : ReadsQueue) (op : QOp) :
    q.num_out ≤ (applyOp q op).num_out := by
  obtain ⟨c, d, t, i, o, recs⟩ := q
  cases op with
  | push rec =>
    simp only [applyOp, ReadsQueue.push]
    split <;> simp
  | pop =>
    cases recs <;> simp [applyOp, ReadsQueue.pop]
  | close => simp [applyOp]

theorem num_out_runOps_eq_succPops (q : ReadsQueue) (ops : List QOp) :
    (runOps q ops).num_out = q.num_out + succPops q ops := by
  induction ops generalizing q with
  | nil => rfl
  | cons op ops ih =>
    have h2 := ih (applyOp q op)
    simp only [runOps, List.foldl_cons] at *
    cases op with
    | push rec =>
      rw [h2]
      have : (applyOp q (QOp.push rec)).num_out = q.num_out := by
        simp only [applyOp, ReadsQueue.push]
        split <;> rfl
      simp [succPops, this]
    | pop =>
      rw [h2]
      simp only [succPops]
      have hq : (applyOp q QOp.pop).num_out = q.num_out + (if q.pop.1 then 1 else 0) := by
        obtain ⟨c, d, t, i, o, recs⟩ := q
        cases recs <;> simp [applyOp, ReadsQueue.pop]
      omega
    | close =>
      rw [h2]
      simp [succPops, applyOp]

theorem is_done_push_applyOp (q : ReadsQueue) (op : QOp) (h : q.is_done_push = true) :
    (applyOp q op).is_done_push = true := by
  obtain ⟨c, d, t, i, o, recs⟩ := q
  cases op with
  | push rec =>
    simp only [applyOp, ReadsQueue.push]
    split <;> simpa using h
  | pop =>
    cases recs <;> simpa [applyOp, ReadsQueue.pop] using h
  | close => rfl

theorem is_done_push_runOps (q : ReadsQueue) (ops : List QOp) (h : q.is_done_push = true) :
    (runOps q ops).is_done_push = true := by
  induction ops generalizing q with
  | nil => exact h
  | cons op ops ih => exact ih _ (is_done_push_applyOp q op h)

/-- C1: counterexample. On a queue built with the source defaults (capacity
100, num_reads_tot 0), a single push leads to a reachable state with
num_in = 1 and num_reads_tot = 0, so the claimed invariant
num_out ≤ num_in ≤ num_expected fails: push increments num_in without any
check against num_reads_tot. -/
theorem C1_cex :
    ¬ (((mkReadsQueue 100 0).push "a").2.num_in ≤
        ((mkReadsQueue 100 0).push "a").2.num_reads_tot) := by
  decide

/-- C1 (amended): for every state reached by a sequence of push, pop and close
operations from construction, num_out ≤ num_in holds, and each of num_in,
num_out, num_reads_tot is monotonically non-decreasing at every step; the
upper bound num_in ≤ num_expected additionally requires that the sequence
contains at most num_expected pushes, since push increments num_in
unconditionally. -/
theorem C1_queue_counters (c n : Nat) (ops : List QOp) (op : QOp) :
    (runOps (mkReadsQueue c n) ops).num_out ≤ (runOps (mkReadsQueue c n) ops).num_in ∧
    (countPush ops ≤ n →
      (runOps (mkReadsQueue c n) ops).num_in ≤ (runOps (mkReadsQueue c n) ops).num_reads_tot) ∧
    (runOps (mkReadsQueue c n) ops).num_in ≤ (applyOp (runOps (mkReadsQueue c n) ops) op).num_in ∧
    (runOps (mkReadsQueue c n) ops).num_out ≤ (applyOp (runOps (mkReadsQueue c n) ops) op).num_out ∧
    (runOps (mkReadsQueue c n) ops).num_reads_tot ≤
      (applyOp (runOps (mkReadsQueue c n) ops) op).num_reads_tot := by
  have h1 : QInv (runOps (mkReadsQueue c n) ops) :=
    qInv_runOps _ _ (by simp [QInv, mkReadsQueue])
  have h2 := num_in_runOps (mkReadsQueue c n) ops
  have h3 := num_reads_tot_runOps (mkReadsQueue c n) ops
  have h4 := num_in_applyOp (runOps (mkReadsQueue c n) ops) op
  have h5 := num_out_applyOp_mono (runOps (mkReadsQueue c n) ops) op
  have h6 := num_reads_tot_applyOp (runOps (mkReadsQueue c n) ops) op
  refine ⟨?_, ?_, ?_, h5, ?_⟩
  · simp only [QInv] at h1
    omega
  · intro hc
    rw [h2, h3]
    simpa [mkReadsQueue] using hc
  · rw [h4]
    omega
  · rw [h6]

/-- C1 witness: the amended statement evaluated on capacity 2, expected total
3, the sequence push, pop, close (one push, at most 3), and a further push. -/
theorem C1_queue_counters_witness :
    (runOps (mkReadsQueue 2 3) [QOp.push "a", QOp.pop, QOp.close]).num_out ≤
      (runOps (mkReadsQueue 2 3) [QOp.push "a", QOp.pop, QOp.close]).num_in ∧
    (runOps (mkReadsQueue 2 3) [QOp.push "a", QOp.pop, QOp.close]).num_in ≤
      (runOps (mkReadsQueue 2 3) [QOp.push "a", QOp.pop, QOp.close]).num_reads_tot ∧
    (runOps (mkReadsQueue 2 3) [QOp.push "a", QOp.pop, QOp.close]).num_in ≤
      (applyOp (runOps (mkReadsQueue 2 3) [QOp.push "a", QOp.pop, QOp.close]) (QOp.push "b")).num_in ∧
    (runOps (mkReadsQueue 2 3) [QOp.push "a", QOp.pop, QOp.close]).num_out ≤
      (applyOp (runOps (mkReadsQueue 2 3) [QOp.push "a", QOp.pop, QOp.close]) (QOp.push "b")).num_out ∧
    (runOps (mkReadsQueue 2 3) [QOp.push "a", QOp.pop, QOp.close]).num_reads_tot ≤
      (applyOp (runOps (mkReadsQueue 2 3) [QOp.push "a", QOp.pop, QOp.close]) (QOp.push "b")).num_reads_tot :=
  ⟨(C1_queue_counters 2 3 [QOp.push "a", QOp.pop, QOp.close] (QOp.push "b")).1,
   (C1_queue_counters 2 3 [QOp.push "a", QOp.pop, QOp.close] (QOp.push "b")).2.1 (by decide),
   (C1_queue_counters 2 3 [QOp.push "a", QOp.pop, QOp.close] (QOp.push "b")).2.2⟩

/-- C3: the CONCURRENTQUEUE push evaluated at the failing input. On a queue of
capacity 1 already holding one record, a second push returns immediately with
false, the record is dropped (the container still holds only the first
record), and num_in is incremented to 2 anyway. This contradicts the claim
(and the doc comment of the method itself, which says the call blocks until
the queue has capacity and a record is never lost). -/
theorem C3_push_full_drops :
    (((mkReadsQueue 1 0).push "a").2.push "b").1 = false ∧
    (((mkReadsQueue 1 0).push "a").2.push "b").2.recs = ["a"] ∧
    (((mkReadsQueue 1 0).push "a").2.push "b").2.num_in = 2 :=
  ⟨rfl, rfl, rfl⟩

/-- C4: counterexample. A pop on an empty queue whose is_done_push latch is
set observes the closed condition (returns false with no record), yet a later
push still enqueues a record, because push never consults is_done_push: after
a pop has observed closed, further items can appear in the queue. -/
theorem C4_cex :
    (applyOp (mkReadsQueue 100 0) QOp.close).is_done_push = true ∧
    (applyOp (mkReadsQueue 100 0) QOp.close).pop.1 = false ∧
    (applyOp (mkReadsQueue 100 0) QOp.close).pop.2.1 = none ∧
    ((applyOp (mkReadsQueue 100 0) QOp.close).pop.2.2.push "x").2.recs = ["x"] :=
  ⟨rfl, rfl, rfl, rfl⟩

/-- C4 (amended): pop returns a record exactly when the queue is non-empty
(the record is the front one and it is removed), and returns false with no
record exactly when the queue is empty, whether or not is_done_push is set; in
particular pop never reports the closed condition while the queue holds items.
The further part of the original claim, that no item can appear after a pop
observed the closed condition, does not hold, since push ignores the latch. -/
theorem C4_pop_behavior (q : ReadsQueue) :
    q.pop.1 = !q.recs.isEmpty ∧
    q.pop.2.1 = q.recs.head? ∧
    q.pop.2.2.recs = q.recs.tail := by
  obtain ⟨c, d, t, i, o, recs⟩ := q
  cases recs <;> simp [ReadsQueue.pop]

/-- C5: counterexample. With the is_done_push latch set on an empty queue of
capacity 100, a push still succeeds and enqueues its record: push does not
consult the latch, so pushes after close do not fail with a closed error. -/
theorem C5_cex :
    (applyOp (mkReadsQueue 100 0) QOp.close).is_done_push = true ∧
    ((applyOp (mkReadsQueue 100 0) QOp.close).push "a").1 = true ∧
    ((applyOp (mkReadsQueue 100 0) QOp.close).push "a").2.recs = ["a"] :=
  ⟨rfl, rfl, rfl⟩

/-- C5 (amended): the latch is one-way across the modeled operations: once
is_done_push is true it stays true after any further sequence of push, pop and
close; however push ignores the latch: a push on a closed queue behaves
exactly as on an open one, enqueuing whenever the container is below capacity
and leaving the latch set. -/
theorem C5_latch (q : ReadsQueue) (ops : List QOp) (rec : String)
    (h : q.is_done_push = true) :
    (runOps q ops).is_done_push = true ∧
    (q.push rec).2.recs =
      (if q.recs.length < q.capacity then q.recs ++ [rec] else q.recs) ∧
    (q.push rec).2.is_done_push = true := by
  refine ⟨is_done_push_runOps q ops h, ?_, ?_⟩
  · simp only [ReadsQueue.push]
    split <;> rfl
  · simp only [ReadsQueue.push]
    split <;> simpa using h

/-- C5 witness: the amended statement evaluated on a freshly closed queue of
capacity 4 with a subsequent push and pop, and one more push of record b. -/
theorem C5_latch_witness :
    (runOps (applyOp (mkReadsQueue 4 0) QOp.close) [QOp.push "a", QOp.pop]).is_done_push = true ∧
    ((applyOp (mkReadsQueue 4 0) QOp.close).push "b").2.recs =
      (if (applyOp (mkReadsQueue 4 0) QOp.close).recs.length <
          (applyOp (mkReadsQueue 4 0) QOp.close).capacity then
        (applyOp (mkReadsQueue 4 0) QOp.close).recs ++ ["b"]
      else (applyOp (mkReadsQueue 4 0) QOp.close).recs) ∧
    ((applyOp (mkReadsQueue 4 0) QOp.close).push "b").2.is_done_push = true :=
  C5_latch (applyOp (mkReadsQueue 4 0) QOp.close) [QOp.push "a", QOp.pop] "b" rfl

/-- C9: pop increments num_out by exactly one when it returns a record and
leaves num_out unchanged otherwise, and after any sequence of operations from
construction num_out equals the number of successful pops performed so far. -/
theorem C9_pop_counts (c n : Nat) (ops : List QOp) (q : ReadsQueue) :
    q.pop.2.2.num_out = q.num_out + (if q.pop.1 then 1 else 0) ∧
    (runOps (mkReadsQueue c n) ops).num_out = succPops (mkReadsQueue c n) ops := by
  constructor
  · obtain ⟨c2, d, t, i, o, recs⟩ := q
    cases recs <;> simp [ReadsQueue.pop]
  · simpa [mkReadsQueue] using num_out_runOps_eq_succPops (mkReadsQueue c n) ops

/-- C10: under the LOCKQUEUE backend, whenever push returns, the returned
boolean is false, even though the record has been appended to the queue: the
result of push does not indicate whether the record entered the queue. -/
theorem C10_lockPush_returns_false (q : ReadsQueue) (rec : String) (r : Bool)
    (q2 : ReadsQueue) (h : q.lockPush rec = some (r, q2)) :
    r = false ∧ q2.recs = q.recs ++ [rec] := by
  unfold ReadsQueue.lockPush at h
  split at h
  · injection h with h2
    injection h2 with ha hb
    exact ⟨ha.symm, by rw [← hb]⟩
  · exact Option.noConfusion h

/-- C10 witness: the LOCKQUEUE push evaluated on an empty queue of capacity 1
and record a, which returns false with the record enqueued. -/
theorem C10_lockPush_returns_false_witness :
    false = false ∧
    ({ mkReadsQueue 1 0 with recs := ["a"] } : ReadsQueue).recs =
      (mkReadsQueue 1 0).recs ++ ["a"] :=
  C10_lockPush_returns_false (mkReadsQueue 1 0) "a" false
    { mkReadsQueue 1 0 with recs := ["a"] } rfl

/-!
Part 2 models the per-read alignment store around struct alignment_struct of
src/include/paralleltraversal.hpp (lines 54 to 62): fields max_size, size,
min_index, max_index and an array ptr of s_align records. The insertion and
eviction code lives in paralleltraversal.cpp, which is not among the given
sources, so the policy is modelled from the specification (section 4.7).
-/

/-- Modelled from the spec: an alignment record. The struct s_align is defined
in ssw.h, outside the given sources; only its score field matters for the
store policy, so the model keeps just the score (an unsigned integer). -/
structure s_align where
  score : Nat
deriving DecidableEq

/-- Score stored at a given index of the array, 0 out of range. -/
def scoreAt : List s_align → Nat → Nat
  | [], _ => 0
  | a :: _, 0 => a.score
  | _ :: rest, j+1 => scoreAt rest j

/-- Overwrite of the record at a given index by one with the given score
(identity when the index is out of range). -/
def setScore : List s_align → Nat → Nat → List s_align
  | [], _, _ => []
  | _ :: rest, 0, v => ⟨v⟩ :: rest
  | a :: rest, j+1, v => a :: setScore rest j v

/-- Index of the first minimal score in the array (0 for the empty array):
the rescan that recomputes min_index after an eviction. -/
def argminScore : List s_align → Nat
  | [] => 0
  | _ :: [] => 0
  | a :: b :: rest =>
    if scoreAt (b :: rest) (argminScore (b :: rest)) < a.score
    then argminScore (b :: rest) + 1 else 0

/-- Index of the first maximal score in the array (0 for the empty array):
the rescan that recomputes max_index after an eviction. -/
def argmaxScore : List s_align → Nat
  | [] => 0
  | _ :: [] => 0
  | a :: b :: rest =>
    if a.score < scoreAt (b :: rest) (argmaxScore (b :: rest))
    then argmaxScore (b :: rest) + 1 else 0

theorem scoreAt_append_lt (l l2 : List s_align) (j : Nat) (h : j < l.length) :
    scoreAt (l ++ l2) j = scoreAt l j := by
  induction l generalizing j with
  | nil => simp at h
  | cons a rest ih =>
    cases j with
    | zero => rfl
    | succ j =>
      have : j < rest.length := by simp at h; omega
      exact ih j this

theorem scoreAt_append_self (l : List s_align) (v : Nat) :
    scoreAt (l ++ [⟨v⟩]) l.length = v := by
  induction l with
  | nil => rfl
  | cons a rest ih => exact ih

theorem length_setScore (l : List s_align) (j v : Nat) :
    (setScore l j v).length = l.length := by
  induction l generalizing j with
  | nil => rfl
  | cons a rest ih =>
    cases j with
    | zero => rfl
    | succ j => simpa [setScore] using ih j

theorem scoreAt_setScore_self (l : List s_align) (j v : Nat) (h : j < l.length) :
    scoreAt (setScore l j v) j = v := by
  induction l generalizing j with
  | nil => simp at h
  | cons a rest ih =>
    cases j with
    | zero => rfl
    | succ j =>
      have : j < rest.length := by simp at h; omega
      exact ih j this

theorem scoreAt_setScore_ne (l : List s_align) (j k v : Nat) (h : k ≠ j) :
    scoreAt (setScore l j v) k = scoreAt l k := by
  induction l generalizing j k with
  | nil => rfl
  | cons a rest ih =>
    cases j with
    | zero =>
      cases k with
      | zero => exact absurd rfl h
      | succ k => rfl
    | succ j =>
      cases k with
      | zero => rfl
      | succ k => exact ih j k (fun he => h (by omega))

theorem argminScore_lt (l : List s_align) (h : l ≠ []) : argminScore l < l.length := by
  induction l with
  | nil => exact absurd rfl h
  | cons a rest ih =>
    cases rest with
    | nil => simp [argminScore]
    | cons b rest2 =>
      have h2 := ih (by simp)
      simp only [argminScore]
      split
      · simpa using Nat.succ_lt_succ h2
      · simp

theorem argminScore_le (l : List s_align) (j : Nat) (hj : j < l.length) :
    scoreAt l (argminScore l) ≤ scoreAt l j := by
  induction l generalizing j with
  | nil => simp at hj
  | cons a rest ih =>
    cases rest with
    | nil =>
      cases j with
      | zero => exact Nat.le_refl _
      | succ j => simp at hj
    | cons b rest2 =>
      simp only [argminScore]
      split
      · rename_i hlt
        cases j with
        | zero => exact Nat.le_of_lt hlt
        | succ j =>
          have : j < (b :: rest2).length := by simp at hj; simpa using hj
          exact ih j this
      · rename_i hge
        cases j with
        | zero => exact Nat.le_refl _
        | succ j =>
          have hj2 : j < (b :: rest2).length := by simp at hj; simpa using hj
          exact Nat.le_trans (Nat.le_of_not_lt hge) (ih j hj2)

theorem argmaxScore_lt (l : List s_align) (h : l ≠ []) : argmaxScore l < l.length := by
  induction l with
  | nil => exact absurd rfl h
  | cons a rest ih =>
    cases rest with
    | nil => simp [argmaxScore]
    | cons b rest2 =>
      have h2 := ih (by simp)
      simp only [argmaxScore]
      split
      · simpa using Nat.succ_lt_succ h2
      · simp

theorem argmaxScore_ge (l : List s_align) (j : Nat) (hj : j < l.length) :
    scoreAt l j ≤ scoreAt l (argmaxScore l) := by
  induction l generalizing j with
  | nil => simp at hj
  | cons a rest ih =>
    cases rest with
    | nil =>
      cases j with
      | zero => exact Nat.le_refl _
      | succ j => simp at hj
    | cons b rest2 =>
      simp only [argmaxScore]
      split
      · rename_i hlt
        cases j with
        | zero => exact Nat.le_of_lt hlt
        | succ j =>
          have : j < (b :: rest2).length := by simp at hj; simpa using hj
          exact ih j this
      · rename_i hge
        cases j with
        | zero => exact Nat.le_refl _
        | succ j =>
          have hj2 : j < (b :: rest2).length := by simp at hj; simpa using hj
          exact Nat.le_trans (ih j hj2) (Nat.le_of_not_lt hge)

/-- State of struct alignment_struct (paralleltraversal.hpp, lines 54 to 62):
capacity max_size, used count size, indices of the minimum and maximum scoring
alignments, and the array ptr. -/
structure alignment_struct where
  max_size : Nat
  size : Nat
  min_index : Nat
  max_index : Nat
  ptr : List s_align
deriving DecidableEq

/-- Modelled from the spec: the per-read store starts empty, with both indices
at 0 and the configured capacity (section 4.7; the constructing code is in
paralleltraversal.cpp, outside the given sources). -/
def initStore (cap : Nat) : alignment_struct :=
  { max_size := cap, size := 0, min_index := 0, max_index := 0, ptr := [] }

/-- Modelled from the spec: insertion policy of the per-read store
(section 4.7; the code is in paralleltraversal.cpp, outside the given
sources). Below capacity the alignment is appended, min_index is recomputed
only if the new score is below the current minimum and max_index only if it is
above the current maximum. At capacity, a score not above the stored minimum
is rejected; otherwise the entry at min_index is overwritten and both indices
are recomputed by rescanning the array. -/
def insertAlign (s : alignment_struct) (v : Nat) : alignment_struct :=
  if s.size < s.max_size then
    { s with
      size := s.size + 1
      ptr := s.ptr ++ [⟨v⟩]
      min_index := if v < scoreAt s.ptr s.min_index then s.size else s.min_index
      max_index := if scoreAt s.ptr s.max_index < v then s.size else s.max_index }
  else if v ≤ scoreAt s.ptr s.min_index then s
  else
    { s with
      ptr := setScore s.ptr s.min_index v
      min_index := argminScore (setScore s.ptr s.min_index v)
      max_index := argmaxScore (setScore s.ptr s.min_index v) }

/-- Store reached by inserting a sequence of scores into a fresh store of the
given capacity. -/
def runInserts (cap : Nat) (vs : List Nat) : alignment_struct :=
  vs.foldl insertAlign (initStore cap)

/-- Invariant of the alignment store: size matches the array, stays within
capacity, and the two indices point at a minimal, respectively maximal, score
(with both at 0 while the array is empty). -/
def StoreInv (s : alignment_struct) : Prop :=
  s.size = s.ptr.length ∧
  s.size ≤ s.max_size ∧
  (s.ptr = [] → s.min_index = 0 ∧ s.max_index = 0) ∧
  (s.ptr ≠ [] →
    s.min_index < s.ptr.length ∧ s.max_index < s.ptr.length ∧
    (∀ j, j < s.ptr.length → scoreAt s.ptr s.min_index ≤ scoreAt s.ptr j) ∧
    (∀ j, j < s.ptr.length → scoreAt s.ptr j ≤ scoreAt s.ptr s.max_index))

theorem minIdx_append (ptr : List s_align) (mi v : Nat)
    (hmi : mi < ptr.length)
    (hmin : ∀ j, j < ptr.length → scoreAt ptr mi ≤ scoreAt ptr j) (j : Nat)
    (hj : j < ptr.length + 1) :
    scoreAt (ptr ++ [⟨v⟩]) (if v < scoreAt ptr mi then ptr.length else mi) ≤
      scoreAt (ptr ++ [⟨v⟩]) j := by
  have hv : scoreAt (ptr ++ [⟨v⟩]) ptr.length = v := scoreAt_append_self ptr v
  by_cases hlt : v < scoreAt ptr mi
  · rw [if_pos hlt, hv]
    rcases Nat.lt_or_ge j ptr.length with hjl | hjg
    · rw [scoreAt_append_lt ptr _ j hjl]
      exact Nat.le_trans (Nat.le_of_lt hlt) (hmin j hjl)
    · have hje : j = ptr.length := by omega
      subst hje
      rw [hv]
  · rw [if_neg hlt, scoreAt_append_lt ptr _ mi hmi]
    rcases Nat.lt_or_ge j ptr.length with hjl | hjg
    · rw [scoreAt_append_lt ptr _ j hjl]
      exact hmin j hjl
    · have hje : j = ptr.length := by omega
      subst hje
      rw [hv]
      exact Nat.le_of_not_lt hlt

theorem maxIdx_append (ptr : List s_align) (ma v : Nat)
    (hma : ma < ptr.length)
    (hmax : ∀ j, j < ptr.length → scoreAt ptr j ≤ scoreAt ptr ma) (j : Nat)
    (hj : j < ptr.length + 1) :
    scoreAt (ptr ++ [⟨v⟩]) j ≤
      scoreAt (ptr ++ [⟨v⟩]) (if scoreAt ptr ma < v then ptr.length else ma) := by
  have hv : scoreAt (ptr ++ [⟨v⟩]) ptr.length = v := scoreAt_append_self ptr v
  by_cases hlt : scoreAt ptr ma < v
  · rw [if_pos hlt, hv]
    rcases Nat.lt_or_ge j ptr.length with hjl | hjg
    · rw [scoreAt_append_lt ptr _ j hjl]
      exact Nat.le_trans (hmax j hjl) (Nat.le_of_lt hlt)
    · have hje : j = ptr.length := by omega
      subst hje
      rw [hv]
  · rw [if_neg hlt, scoreAt_append_lt ptr _ ma hma]
    rcases Nat.lt_or_ge j ptr.length with hjl | hjg
    · rw [scoreAt_append_lt ptr _ j hjl]
      exact hmax j hjl
    · have hje : j = ptr.length := by omega
      subst hje
      rw [hv]
      exact Nat.le_of_not_lt hlt

theorem storeInv_append (cap sz mi ma : Nat) (ptr : List s_align) (v : Nat)
    (hsz : sz = ptr.length) (hlt : sz < cap)
    (hemp : ptr = [] → mi = 0 ∧ ma = 0)
    (hne : ptr ≠ [] → mi < ptr.length ∧ ma < ptr.length ∧
      (∀ j, j < ptr.length → scoreAt ptr mi ≤ scoreAt ptr j) ∧
      (∀ j, j < ptr.length → scoreAt ptr j ≤ scoreAt ptr ma)) :
    StoreInv { max_size := cap, size := sz + 1,
               min_index := if v < scoreAt ptr mi then sz else mi,
               max_index := if scoreAt ptr ma < v then sz else ma,
               ptr := ptr ++ [⟨v⟩] } := by
  by_cases hptr : ptr = []
  · subst hptr
    have hsz0 : sz = 0 := by simpa using hsz
    subst hsz0
    obtain ⟨h1, h2⟩ := hemp rfl
    subst h1
    subst h2
    refine ⟨by simp, ?_, by simp, fun _ => ?_⟩
    · show 0 + 1 ≤ cap
      omega
    · simp only [scoreAt, List.nil_append, ite_self]
      refine ⟨by simp, by simp, ?_, ?_⟩
      · intro j hj
        have hj0 : j = 0 := by simp at hj; omega
        subst hj0
        exact Nat.le_refl _
      · intro j hj
        have hj0 : j = 0 := by simp at hj; omega
        subst hj0
        exact Nat.le_refl _
  · obtain ⟨hmi, hma, hminle, hmaxge⟩ := hne hptr
    subst hsz
    refine ⟨by simp, ?_, by simp, fun _ => ?_⟩
    · show ptr.length + 1 ≤ cap
      omega
    · refine ⟨?_, ?_, ?_, ?_⟩
      · show (if v < scoreAt ptr mi then ptr.length else mi) < (ptr ++ [s_align.mk v]).length
        simp only [List.length_append, List.length_cons, List.length_nil]
        split <;> omega
      · show (if scoreAt ptr ma < v then ptr.length else ma) < (ptr ++ [s_align.mk v]).length
        simp only [List.length_append, List.length_cons, List.length_nil]
        split <;> omega
      · intro j hj
        have hj2 : j < ptr.length + 1 := by simpa using hj
        exact minIdx_append ptr mi v hmi hminle j hj2
      · intro j hj
        have hj2 : j < ptr.length + 1 := by simpa using hj
        exact maxIdx_append ptr ma v hma hmaxge j hj2

theorem storeInv_evict (cap sz mi v : Nat) (ptr : List s_align)
    (hsz : sz = ptr.length) (hcap : sz ≤ cap) :
    StoreInv { max_size := cap, size := sz,
               min_index := argminScore (setScore ptr mi v),
               max_index := argmaxScore (setScore ptr mi v),
               ptr := setScore ptr mi v } := by
  have hlen := length_setScore ptr mi v
  refine ⟨by simp [hlen, hsz], hcap, ?_, ?_⟩
  · intro h0
    have h0x : setScore ptr mi v = [] := h0
    rw [h0x]
    exact ⟨rfl, rfl⟩
  · intro hne2
    refine ⟨argminScore_lt _ hne2, argmaxScore_lt _ hne2, ?_, ?_⟩
    · intro j hj
      exact argminScore_le _ j hj
    · intro j hj
      exact argmaxScore_ge _ j hj

theorem storeInv_insertAlign (s : alignment_struct) (v : Nat) (h : StoreInv s) :
    StoreInv (insertAlign s v) := by
  obtain ⟨cap, sz, mi, ma, ptr⟩ := s
  obtain ⟨hsz, hcap, hemp, hne⟩ := h
  unfold insertAlign
  split
  · rename_i h1
    exact storeInv_append cap sz mi ma ptr v hsz h1 hemp hne
  · rename_i h1
    split
    · exact ⟨hsz, hcap, hemp, hne⟩
    · exact storeInv_evict cap sz mi v ptr hsz hcap

theorem storeInv_foldl (vs : List Nat) (s : alignment_struct) (h : StoreInv s) :
    StoreInv (vs.foldl insertAlign s) := by
  induction vs generalizing s with
  | nil => exact h
  | cons v vs ih => exact ih _ (storeInv_insertAlign s v h)

theorem storeInv_initStore (cap : Nat) : StoreInv (initStore cap) :=
  ⟨rfl, by simp [initStore], fun _ => ⟨rfl, rfl⟩, fun hc => absurd rfl hc⟩

/-- C2: for every store reachable by a sequence of inserts (evictions happen
inside insertAlign when the store is at capacity), the used size stays within
max_size, and the entries at min_index and max_index are respectively a
minimum and a maximum of the scores currently stored, immediately after every
insert and evict. -/
theorem C2_store_min_max (cap : Nat) (vs : List Nat)
    (h : (runInserts cap vs).ptr ≠ []) :
    (runInserts cap vs).size ≤ (runInserts cap vs).max_size ∧
    (runInserts cap vs).min_index < (runInserts cap vs).ptr.length ∧
    (runInserts cap vs).max_index < (runInserts cap vs).ptr.length ∧
    (∀ j, j < (runInserts cap vs).ptr.length →
      scoreAt (runInserts cap vs).ptr (runInserts cap vs).min_index ≤
        scoreAt (runInserts cap vs).ptr j) ∧
    (∀ j, j < (runInserts cap vs).ptr.length →
      scoreAt (runInserts cap vs).ptr j ≤
        scoreAt (runInserts cap vs).ptr (runInserts cap vs).max_index) := by
  obtain ⟨h1, h2, h3, h4⟩ := storeInv_foldl vs (initStore cap) (storeInv_initStore cap)
  obtain ⟨hb1, hb2, hb3, hb4⟩ := h4 h
  exact ⟨h2, hb1, hb2, hb3, hb4⟩

/-- C2 witness: the invariant evaluated on the store reached by inserting the
scores 5, 3 and 7 into a fresh store of capacity 2 (the last insert evicts the
minimum 3). -/
theorem C2_store_min_max_witness :
    (runInserts 2 [5, 3, 7]).size ≤ (runInserts 2 [5, 3, 7]).max_size ∧
    (runInserts 2 [5, 3, 7]).min_index < (runInserts 2 [5, 3, 7]).ptr.length ∧
    (runInserts 2 [5, 3, 7]).max_index < (runInserts 2 [5, 3, 7]).ptr.length ∧
    (∀ j, j < (runInserts 2 [5, 3, 7]).ptr.length →
      scoreAt (runInserts 2 [5, 3, 7]).ptr (runInserts 2 [5, 3, 7]).min_index ≤
        scoreAt (runInserts 2 [5, 3, 7]).ptr j) ∧
    (∀ j, j < (runInserts 2 [5, 3, 7]).ptr.length →
      scoreAt (runInserts 2 [5, 3, 7]).ptr j ≤
        scoreAt (runInserts 2 [5, 3, 7]).ptr (runInserts 2 [5, 3, 7]).max_index) :=
  C2_store_min_max 2 [5, 3, 7] (by decide)

/-- C6: case analysis of the insertion policy. Below capacity the alignment
is appended and min_index (resp. max_index) changes exactly when the new score
is strictly below the minimum (resp. strictly above the maximum), so on an
equal score the earlier entry keeps the index (FIFO). At capacity, a score at
most the stored minimum leaves the store unchanged (an equal score is
rejected, keeping the earlier insertion), and a larger score overwrites the
entry at min_index, after which both indices again point at a minimal and a
maximal score of the rescanned array. -/
theorem C6_insert_cases (s : alignment_struct) (v : Nat) :
    (s.size < s.max_size →
      (insertAlign s v).ptr = s.ptr ++ [⟨v⟩] ∧
      (insertAlign s v).size = s.size + 1 ∧
      (insertAlign s v).min_index =
        (if v < scoreAt s.ptr s.min_index then s.size else s.min_index) ∧
      (insertAlign s v).max_index =
        (if scoreAt s.ptr s.max_index < v then s.size else s.max_index)) ∧
    (¬ s.size < s.max_size → v ≤ scoreAt s.ptr s.min_index → insertAlign s v = s) ∧
    (¬ s.size < s.max_size → scoreAt s.ptr s.min_index < v →
      (insertAlign s v).ptr = setScore s.ptr s.min_index v ∧
      (∀ j, j < (insertAlign s v).ptr.length →
        scoreAt (insertAlign s v).ptr (insertAlign s v).min_index ≤
          scoreAt (insertAlign s v).ptr j ∧
        scoreAt (insertAlign s v).ptr j ≤
          scoreAt (insertAlign s v).ptr (insertAlign s v).max_index)) := by
  refine ⟨?_, ?_, ?_⟩
  · intro h1
    have he : insertAlign s v =
        { s with
          size := s.size + 1
          ptr := s.ptr ++ [⟨v⟩]
          min_index := if v < scoreAt s.ptr s.min_index then s.size else s.min_index
          max_index := if scoreAt s.ptr s.max_index < v then s.size else s.max_index } := by
      simp only [insertAlign, if_pos h1]
    rw [he]
    exact ⟨rfl, rfl, rfl, rfl⟩
  · intro h1 h2
    simp only [insertAlign, if_neg h1, if_pos h2]
  · intro h1 h2
    have he : insertAlign s v =
        { s with
          ptr := setScore s.ptr s.min_index v
          min_index := argminScore (setScore s.ptr s.min_index v)
          max_index := argmaxScore (setScore s.ptr s.min_index v) } := by
      simp only [insertAlign, if_neg h1,
        if_neg (by omega : ¬ v ≤ scoreAt s.ptr s.min_index)]
    rw [he]
    refine ⟨rfl, ?_⟩
    intro j hj
    exact ⟨argminScore_le _ j hj, argmaxScore_ge _ j hj⟩

/-- C6 witness: inserting score 7 into the full store holding scores 5 and 3
(capacity 2) overwrites the entry at min_index. -/
theorem C6_insert_cases_witness :
    (insertAlign (runInserts 2 [5, 3]) 7).ptr =
      setScore (runInserts 2 [5, 3]).ptr (runInserts 2 [5, 3]).min_index 7 :=
  ((C6_insert_cases (runInserts 2 [5, 3]) 7).2.2 (by decide) (by decide)).1

/-- Number of slots by which the array of alignments per read is grown
(paralleltraversal.hpp, line 49). -/
def BEST_HITS_INCREMENT : Nat := 100

/-- Modelled from the spec: one growth step of the alignment array. The
growing code lives in paralleltraversal.cpp, outside the given sources; the
design notes record that the source grows the raw array in increments of 100,
that is by BEST_HITS_INCREMENT slots per overflow. -/
def growCapacity (cap : Nat) : Nat := cap + BEST_HITS_INCREMENT

/-- Capacity of the alignment array after a number of growth steps, starting
from the initial allocation of BEST_HITS_INCREMENT slots. -/
def capacityAfter : Nat → Nat
  | 0 => BEST_HITS_INCREMENT
  | n + 1 => growCapacity (capacityAfter n)

/-- C7: counterexample. A full buffer of capacity 200 grows to 300, not to
400: the growth step is not a doubling. -/
theorem C7_cex : growCapacity 200 = 300 ∧ growCapacity 200 ≠ 2 * 200 := by
  decide

/-- C7 (amended): the buffer grows additively by BEST_HITS_INCREMENT = 100
slots per overflow, starting at 100, so after n growth steps the capacity is
100 * (n + 1); it does not double. -/
theorem C7_growth_additive (n : Nat) :
    capacityAfter n = BEST_HITS_INCREMENT * (n + 1) ∧
    growCapacity (capacityAfter n) = capacityAfter n + BEST_HITS_INCREMENT := by
  refine ⟨?_, rfl⟩
  induction n with
  | zero => rfl
  | succ n ih =>
    simp only [capacityAfter, growCapacity, ih, BEST_HITS_INCREMENT]
    ring

/-!
Part 3 models the deterministic seed emission of the SeedFinder. The function
paralleltraversal is only declared in paralleltraversal.hpp; its body is in
paralleltraversal.cpp, outside the given sources, so the traversal is modelled
from the specification (section 4.4): a burst trie whose leaves hold postings
lists, traversed with children visited in sorted label order and postings
emitted in stored order, with recursion depth bounded by the seed length.
-/

/-- Modelled from the spec: a burst trie. A leaf holds its postings list, a
vector of pairs of reference id and offset, in stored order; an inner node
holds labeled edges to subtries in an arbitrary storage order. -/
inductive BurstTrie where
  | leaf (postings : List (Nat × Nat))
  | node (children : List (Nat × BurstTrie))

/-- Modelled from the spec: insertion of a labeled child into a list of
children already sorted by edge label. -/
def insertChild (c : Nat × BurstTrie) : List (Nat × BurstTrie) → List (Nat × BurstTrie)
  | [] => [c]
  | d :: ds => if c.1 ≤ d.1 then c :: d :: ds else d :: insertChild c ds

/-- Modelled from the spec: the children of a node in sorted label order (the
order in which the traversal visits them). -/
def sortChildren : List (Nat × BurstTrie) → List (Nat × BurstTrie)
  | [] => []
  | c :: cs => insertChild c (sortChildren cs)

/-- Modelled from the spec: the seed emission of the traversal. Children are
visited in sorted label order and the postings of each reached leaf are
emitted in stored order; the recursion is bounded by the seed length (the trie
is keyed on L-mers, so its depth never exceeds the seed length). -/
def seedEmit : Nat → BurstTrie → List (Nat × Nat)
  | _, BurstTrie.leaf ps => ps
  | 0, BurstTrie.node _ => []
  | fuel + 1, BurstTrie.node cs =>
    (sortChildren cs).foldr (fun c acc => seedEmit fuel c.2 ++ acc) []

theorem insertChild_perm (c : Nat × BurstTrie) (l : List (Nat × BurstTrie)) :
    (insertChild c l).Perm (c :: l) := by
  induction l with
  | nil => exact List.Perm.refl _
  | cons d ds ih =>
    simp only [insertChild]
    split
    · exact List.Perm.refl _
    · exact (List.Perm.cons d ih).trans (List.Perm.swap c d ds)

theorem sortChildren_perm (l : List (Nat × BurstTrie)) : (sortChildren l).Perm l := by
  induction l with
  | nil => exact List.Perm.refl _
  | cons c cs ih =>
    exact (insertChild_perm c (sortChildren cs)).trans (List.Perm.cons c ih)

theorem insertChild_sorted (c : Nat × BurstTrie) (l : List (Nat × BurstTrie))
    (h : l.Pairwise (fun a b => a.1 ≤ b.1)) :
    (insertChild c l).Pairwise (fun a b => a.1 ≤ b.1) := by
  induction l with
  | nil => exact List.pairwise_singleton _ _
  | cons d ds ih =>
    rw [List.pairwise_cons] at h
    obtain ⟨hd, hds⟩ := h
    simp only [insertChild]
    split
    · rename_i hle
      rw [List.pairwise_cons]
      refine ⟨?_, ?_⟩
      · intro e he
        rcases List.mem_cons.mp he with he1 | he2
        · subst he1
          exact hle
        · exact Nat.le_trans hle (hd e he2)
      · rw [List.pairwise_cons]
        exact ⟨hd, hds⟩
    · rename_i hgt
      rw [List.pairwise_cons]
      refine ⟨?_, ih hds⟩
      intro e he
      have hem := (insertChild_perm c ds).mem_iff.mp he
      rcases List.mem_cons.mp hem with he1 | he2
      · subst he1
        exact Nat.le_of_not_le hgt
      · exact hd e he2

theorem sortChildren_sorted (l : List (Nat × BurstTrie)) :
    (sortChildren l).Pairwise (fun a b => a.1 ≤ b.1) := by
  induction l with
  | nil => exact List.Pairwise.nil
  | cons c cs ih => exact insertChild_sorted c (sortChildren cs) ih

theorem sorted_lt_eq_of_perm (l₁ l₂ : List (Nat × BurstTrie)) (hp : l₁.Perm l₂)
    (h₁ : l₁.Pairwise (fun a b => a.1 < b.1))
    (h₂ : l₂.Pairwise (fun a b => a.1 < b.1)) : l₁ = l₂ := by
  induction l₁ generalizing l₂ with
  | nil => exact (List.Perm.eq_nil hp.symm).symm
  | cons a t₁ ih =>
    cases l₂ with
    | nil => exact absurd (List.perm_nil.mp hp) (by simp)
    | cons b t₂ =>
      rw [List.pairwise_cons] at h₁ h₂
      obtain ⟨ha, ht₁⟩ := h₁
      obtain ⟨hb, ht₂⟩ := h₂
      have hab : a = b := by
        have hma : a ∈ b :: t₂ := hp.mem_iff.mp (List.mem_cons_self a t₁)
        have hmb : b ∈ a :: t₁ := hp.symm.mem_iff.mp (List.mem_cons_self b t₂)
        rcases List.mem_cons.mp hma with h | h
        · exact h
        · rcases List.mem_cons.mp hmb with h2 | h2
          · exact h2.symm
          · have hx1 := hb a h
            have hx2 := ha b h2
            exact absurd hx2 (by omega)
      subst hab
      rw [ih t₂ hp.cons_inv ht₁ ht₂]

theorem sorted_le_nodup_lt (l : List (Nat × BurstTrie))
    (hs : l.Pairwise (fun a b => a.1 ≤ b.1))
    (hnd : (l.map Prod.fst).Nodup) :
    l.Pairwise (fun a b => a.1 < b.1) := by
  have hnd2 : l.Pairwise (fun a b => a.1 ≠ b.1) := by
    have hx : (l.map Prod.fst).Pairwise (fun a b => a ≠ b) := hnd
    exact List.pairwise_map.mp hx
  exact (hs.and hnd2).imp (fun h => Nat.lt_of_le_of_ne h.1 h.2)

theorem sortChildren_eq_of_perm (cs cs' : List (Nat × BurstTrie))
    (hp : cs.Perm cs') (hnd : (cs.map Prod.fst).Nodup) :
    sortChildren cs = sortChildren cs' := by
  have p1 := sortChildren_perm cs
  have p2 := sortChildren_perm cs'
  have hnd1 : ((sortChildren cs).map Prod.fst).Nodup :=
    (List.Perm.nodup_iff (p1.map Prod.fst)).mpr hnd
  have hnd2 : ((sortChildren cs').map Prod.fst).Nodup := by
    have hx : (cs'.map Prod.fst).Nodup := (List.Perm.nodup_iff (hp.map Prod.fst)).mp hnd
    exact (List.Perm.nodup_iff (p2.map Prod.fst)).mpr hx
  exact sorted_lt_eq_of_perm _ _ (p1.trans (hp.trans p2.symm))
    (sorted_le_nodup_lt _ (sortChildren_sorted cs) hnd1)
    (sorted_le_nodup_lt _ (sortChildren_sorted cs') hnd2)

/-- Modelled from the spec: two in-memory representations of the same logical
trie, to the given depth. Leaves hold equal postings in the same stored order;
at a node, the edge labels are distinct and the children of the two
representations match up to a permutation of their storage order, with
corresponding subtries equivalent. This is the only run-to-run variation left
once inputs and parameters are fixed and num_workers is 1: the logical index
is the same, only the order in which children sit in memory may differ. -/
def TrieEquiv : Nat → BurstTrie → BurstTrie → Prop
  | _, BurstTrie.leaf ps, BurstTrie.leaf qs => ps = qs
  | 0, BurstTrie.node _, BurstTrie.node _ => True
  | fuel + 1, BurstTrie.node cs, BurstTrie.node cs' =>
    (cs.map Prod.fst).Nodup ∧
    ∃ ds, List.Forall₂ (fun c d => c.1 = d.1 ∧ TrieEquiv fuel c.2 d.2) cs ds ∧ ds.Perm cs'
  | _, BurstTrie.leaf _, BurstTrie.node _ => False
  | _, BurstTrie.node _, BurstTrie.leaf _ => False

theorem forall₂_fst_eq {R : (Nat × BurstTrie) → (Nat × BurstTrie) → Prop}
    (hR : ∀ c d, R c d → c.1 = d.1) {cs ds : List (Nat × BurstTrie)}
    (hf : List.Forall₂ R cs ds) : cs.map Prod.fst = ds.map Prod.fst := by
  induction hf with
  | nil => rfl
  | @cons x y l m hr hf2 ih => simp [List.map_cons, hR x y hr, ih]

theorem insertChild_forall₂ {R : (Nat × BurstTrie) → (Nat × BurstTrie) → Prop}
    (hR : ∀ c d, R c d → c.1 = d.1) (c d : Nat × BurstTrie) (hcd : R c d)
    {l m : List (Nat × BurstTrie)} (hf : List.Forall₂ R l m) :
    List.Forall₂ R (insertChild c l) (insertChild d m) := by
  induction hf with
  | nil => exact List.Forall₂.cons hcd List.Forall₂.nil
  | @cons x y l2 m2 hr hf2 ih =>
    simp only [insertChild]
    have hxy := hR x y hr
    have hcd1 := hR c d hcd
    by_cases hle : c.1 ≤ x.1
    · rw [if_pos hle, if_pos (by rw [← hcd1, ← hxy]; exact hle)]
      exact List.Forall₂.cons hcd (List.Forall₂.cons hr hf2)
    · rw [if_neg hle, if_neg (by rw [← hcd1, ← hxy]; exact hle)]
      exact List.Forall₂.cons hr ih

theorem sortChildren_forall₂ {R : (Nat × BurstTrie) → (Nat × BurstTrie) → Prop}
    (hR : ∀ c d, R c d → c.1 = d.1) {cs ds : List (Nat × BurstTrie)}
    (hf : List.Forall₂ R cs ds) :
    List.Forall₂ R (sortChildren cs) (sortChildren ds) := by
  induction hf with
  | nil => exact List.Forall₂.nil
  | @cons x y cs2 ds2 hr hf2 ih =>
    simp only [sortChildren]
    exact insertChild_forall₂ hR x y hr ih

theorem seedFold_congr {R : (Nat × BurstTrie) → (Nat × BurstTrie) → Prop}
    (fuel : Nat)
    (hemit : ∀ c d, R c d → seedEmit fuel c.2 = seedEmit fuel d.2)
    {l m : List (Nat × BurstTrie)} (hf : List.Forall₂ R l m) :
    l.foldr (fun c acc => seedEmit fuel c.2 ++ acc) [] =
      m.foldr (fun c acc => seedEmit fuel c.2 ++ acc) [] := by
  induction hf with
  | nil => rfl
  | @cons x y l2 m2 hr hf2 ih => simp [List.foldr_cons, hemit x y hr, ih]

theorem seedEmit_equiv (fuel : Nat) (t t' : BurstTrie) (h : TrieEquiv fuel t t') :
    seedEmit fuel t = seedEmit fuel t' := by
  induction fuel generalizing t t' with
  | zero =>
    cases t with
    | leaf ps =>
      cases t' with
      | leaf qs =>
        have hx : ps = qs := h
        simp [seedEmit, hx]
      | node cs' => exact absurd h (by simp [TrieEquiv])
    | node cs =>
      cases t' with
      | leaf qs => exact absurd h (by simp [TrieEquiv])
      | node cs' => rfl
  | succ fuel ih =>
    cases t with
    | leaf ps =>
      cases t' with
      | leaf qs =>
        have hx : ps = qs := h
        simp [seedEmit, hx]
      | node cs' => exact absurd h (by simp [TrieEquiv])
    | node cs =>
      cases t' with
      | leaf qs => exact absurd h (by simp [TrieEquiv])
      | node cs' =>
        obtain ⟨hnd, ds, hf, hperm⟩ := h
        have hR : ∀ c d : Nat × BurstTrie,
            (c.1 = d.1 ∧ TrieEquiv fuel c.2 d.2) → c.1 = d.1 := fun _ _ hx => hx.1
        have hfst : cs.map Prod.fst = ds.map Prod.fst := forall₂_fst_eq hR hf
        have hndds : (ds.map Prod.fst).Nodup := hfst ▸ hnd
        have hsort_eq : sortChildren ds = sortChildren cs' :=
          sortChildren_eq_of_perm ds cs' hperm hndds
        have hf2 := sortChildren_forall₂ hR hf
        have hfold := seedFold_congr fuel
          (fun c d hx => ih c.2 d.2 hx.2) hf2
        simp only [seedEmit]
        rw [hfold, hsort_eq]

/-- Modelled from the spec: the byte output of one whole run of the pipeline
with num_workers = 1. The single worker pops the reads in input order and
processes them one at a time; for each read the seed phase emits the seeds of
the shared index trie, and the downstream phases (chaining, extension,
acceptance and serialisation, spec sections 4.5 to 4.8 and the external sink)
are an arbitrary function of the read and its seed list, all being specified
as deterministic functions of those inputs. The run output is the
concatenation of the per-read bytes in processing order. -/
def pipelineOutput (downstream : String → List (Nat × Nat) → String)
    (fuel : Nat) (index : BurstTrie) (reads : List String) : String :=
  String.join (reads.map (fun r => downstream r (seedEmit fuel index)))

/-- C8: determinism of the modelled pipeline as a two-run property. Two runs
with num_workers = 1 on identical reads, identical parameters (the downstream
function and the depth bound) and the same logical index, whose in-memory
child storage order may differ between the runs (TrieEquiv), produce
byte-identical output; in particular the seed list emitted from the index is
the same in both runs, trie children are visited in sorted label order, and
the postings of a leaf are emitted in stored order. -/
theorem C8_pipeline_deterministic (downstream : String → List (Nat × Nat) → String)
    (fuel : Nat) (index index' : BurstTrie) (reads : List String)
    (ps : List (Nat × Nat)) (cs : List (Nat × BurstTrie))
    (h : TrieEquiv fuel index index') :
    pipelineOutput downstream fuel index reads =
      pipelineOutput downstream fuel index' reads ∧
    seedEmit fuel index = seedEmit fuel index' ∧
    ((sortChildren cs).map Prod.fst).Pairwise (fun a b => a ≤ b) ∧
    seedEmit fuel (BurstTrie.leaf ps) = ps := by
  have hseed := seedEmit_equiv fuel index index' h
  refine ⟨?_, hseed, ?_, ?_⟩
  · simp only [pipelineOutput, hseed]
  · exact List.pairwise_map.mpr (sortChildren_sorted cs)
  · cases fuel <;> rfl

/-- C8 witness: two runs over a two-child index stored in the two possible
child orders, with two reads and a sample downstream serialiser, produce the
same output string. -/
theorem C8_pipeline_deterministic_witness :
    pipelineOutput (fun r ps => r ++ toString ps.length) 2
        (BurstTrie.node [(1, BurstTrie.leaf [(10, 0)]), (2, BurstTrie.leaf [(20, 3)])])
        ["r1", "r2"] =
      pipelineOutput (fun r ps => r ++ toString ps.length) 2
        (BurstTrie.node [(2, BurstTrie.leaf [(20, 3)]), (1, BurstTrie.leaf [(10, 0)])])
        ["r1", "r2"] ∧
    seedEmit 2 (BurstTrie.node [(1, BurstTrie.leaf [(10, 0)]), (2, BurstTrie.leaf [(20, 3)])]) =
      seedEmit 2 (BurstTrie.node [(2, BurstTrie.leaf [(20, 3)]), (1, BurstTrie.leaf [(10, 0)])]) ∧
    ((sortChildren [(1, BurstTrie.leaf [(10, 0)]), (2, BurstTrie.leaf [(20, 3)])]).map
      Prod.fst).Pairwise (fun a b => a ≤ b) ∧
    seedEmit 2 (BurstTrie.leaf [(5, 5)]) = [(5, 5)] :=
  C8_pipeline_deterministic (fun r ps => r ++ toString ps.length) 2 _ _ ["r1", "r2"]
    [(5, 5)] [(1, BurstTrie.leaf [(10, 0)]), (2, BurstTrie.leaf [(20, 3)])]
    ⟨by decide,
     [(1, BurstTrie.leaf [(10, 0)]), (2, BurstTrie.leaf [(20, 3)])],
     List.Forall₂.cons ⟨rfl, rfl⟩ (List.Forall₂.cons ⟨rfl, rfl⟩ List.Forall₂.nil),
     List.Perm.swap _ _ _⟩

end SortMeRNA
